import Mathlib

/-!
Verification development for the sidebar history banner component
(`SidebarHistoryBanner` and its helpers).  The component maintains a small,
bounded, deduplicated, most-recently-visited list of locations, each entry
carrying a human-readable label.  All definitions below are shallow embeddings
of the TypeScript source: JS strings are modelled as Lean `String` (lists of
characters), JS `null`/`undefined` as `Option`, fallible storage reads as an
explicit input describing the outcome, and the two `useEffect` blocks as a
step function on an explicit controller state.
-/

/-- Truthiness of a JS `string | null` value: `null` and the empty string are
falsy, every other string is truthy. -/
def jsTruthy : Option String → Bool
  | none => false
  | some s => !(s == "")

/-- The string a truthy JS `string | null` value denotes when interpolated. -/
def headingText : Option String → String
  | none => ""
  | some h => h

/-- Whether the first list is a leading run of the second list. -/
def startsWithList : List Char → List Char → Bool
  | [], _ => true
  | _ :: _, [] => false
  | p :: ps, c :: cs => p == c && startsWithList ps cs

/-- JS `String.prototype.startsWith`. -/
def jsStartsWith (s p : String) : Bool := startsWithList p.data s.data

/-- Whether the first list occurs contiguously anywhere in the second list. -/
def containsSub (sub : List Char) : List Char → Bool
  | [] => startsWithList sub []
  | c :: cs => startsWithList sub (c :: cs) || containsSub sub cs

/-- JS `String.prototype.includes`. -/
def jsIncludes (s sub : String) : Bool := containsSub sub.data s.data

/-- JS `String.prototype.endsWith`. -/
def jsEndsWith (s suffix : String) : Bool :=
  startsWithList suffix.data.reverse s.data.reverse

/-- JS `String.prototype.slice(n)` for a nonnegative index `n`. -/
def jsSliceFrom (s : String) (n : Nat) : String := ⟨s.data.drop n⟩

/-- `normalizePath` from the source: strip a configured base path prefix, map
the base path itself to the root path, otherwise keep the path unchanged.  A
missing (`undefined`) or empty base path is falsy in JS, so both leave the
path untouched. -/
def normalizePath (pathname : String) (basePath : Option String) : String :=
  match basePath with
  | some bp =>
    if !(bp == "") && jsStartsWith pathname (bp ++ "/") then
      jsSliceFrom pathname bp.length
    else if !(bp == "") && pathname == bp then ("/")
    else pathname
  | none => pathname

/-- A JS `\w` word character (ASCII letter, digit or underscore). -/
def jsWordChar (c : Char) : Bool :=
  ('a' ≤ c && c ≤ 'z') || ('A' ≤ c && c ≤ 'Z') || ('0' ≤ c && c ≤ '9') || c == '_'

/-- One pass of `replace(/\b\w/g, c => c.toUpperCase())`: uppercase every word
character whose predecessor is not a word character.  The boolean argument
records whether the previous character was a word character. -/
def upperAtBoundaries : Bool → List Char → List Char
  | _, [] => []
  | prevWord, c :: cs =>
    (if jsWordChar c && !prevWord then c.toUpper else c) ::
      upperAtBoundaries (jsWordChar c) cs

/-- `toTitleCase` from the source: replace every hyphen and underscore with a
space, then uppercase the first letter at every word boundary. -/
def toTitleCase (input : String) : String :=
  ⟨upperAtBoundaries false
    (input.data.map (fun c => if c == '-' || c == '_' then ' ' else c))⟩

/-- A hexadecimal digit as matched case-insensitively by `[0-9a-f]` under the
regex flag `i`. -/
def isHexChar (c : Char) : Bool :=
  ('0' ≤ c && c ≤ '9') || ('a' ≤ c && c ≤ 'f') || ('A' ≤ c && c ≤ 'F')

/-- A character matched by `[1-5]`. -/
def isVersionChar (c : Char) : Bool := '1' ≤ c && c ≤ '5'

/-- A character matched case-insensitively by `[89ab]` under the flag `i`. -/
def isVariantChar (c : Char) : Bool :=
  c == '8' || c == '9' || c == 'a' || c == 'b' || c == 'A' || c == 'B'

/-- Consume exactly `n` characters all satisfying `p`, returning the rest. -/
def runOf (p : Char → Bool) : Nat → List Char → Option (List Char)
  | 0, cs => some cs
  | _ + 1, [] => none
  | n + 1, c :: cs => if p c then runOf p n cs else none

/-- Consume a single hyphen, returning the rest. -/
def expectDash : List Char → Option (List Char)
  | [] => none
  | c :: cs => if c == '-' then some cs else none

/-- The anchored matcher for the source regex `UUID_PATTERN`, group by group:
8 hex digits, a hyphen, 4 hex digits, a hyphen, one of `1`-`5` then 3 hex
digits, a hyphen, one of `8`, `9`, `a`, `b` then 3 hex digits, a hyphen, and
12 hex digits. -/
def uuidMatcher (cs : List Char) : Option (List Char) :=
  ((((((((((runOf isHexChar 8 cs).bind expectDash).bind
    (runOf isHexChar 4)).bind expectDash).bind
    (runOf isVersionChar 1)).bind (runOf isHexChar 3)).bind expectDash).bind
    (runOf isVariantChar 1)).bind (runOf isHexChar 3)).bind expectDash).bind
    (runOf isHexChar 12)

/-- `UUID_PATTERN.test`: the whole string matches the anchored pattern. -/
def UUID_PATTERN_test (s : String) : Bool :=
  match uuidMatcher s.data with
  | some [] => true
  | _ => false

/-- JS `String.prototype.split("/")` on the character list: the list of
chunks between slashes, including empty chunks. -/
def splitSlash : List Char → List (List Char)
  | [] => [[]]
  | c :: cs =>
    match splitSlash cs with
    | [] => [[]]
    | g :: gs => if c == '/' then [] :: g :: gs else (c :: g) :: gs

/-- `normalizedPath.split("/").filter(Boolean)`: the path segments, with the
empty chunks (the only falsy strings) discarded. -/
def pathSegments (normalizedPath : String) : List String :=
  ((splitSlash normalizedPath.data).map (fun g => String.mk g)).filter
    (fun s => !(s == ""))

/-- The context handed to a label resolver (`SidebarHistoryLabelContext`). -/
structure SidebarHistoryLabelContext where
  heading : Option String
  pathname : String
  query : String
  segments : List String
  url : String
deriving DecidableEq

/-- JS array indexing with a possibly negative index: out-of-range access
yields `undefined`, modelled as `none`. -/
def jsElem (l : List String) (i : Int) : Option String :=
  if i < 0 then none else l.get? i.toNat

/-- The fixed label for the root location. -/
def homeLabel : String := "Home"

/-- The separator joining label parts. -/
def labelJoin : String := " / "

/-- The query-string marker checked by the resolver. -/
def idMarker : String := "_id="

/-- `defaultLabelResolver` from the source, rule by rule: no segments yields
the home label; a truthy heading together with a dynamic-identifier segment
uses the second-to-last segment as parent; a truthy heading together with an
`_id=` query marker uses the last segment as parent; otherwise the last two
segments are title-cased and joined. -/
def defaultLabelResolver (context : SidebarHistoryLabelContext) : String :=
  if context.segments.length == 0 then homeLabel
  else
    let hasDynamicSegment := context.segments.any (fun seg => UUID_PATTERN_test seg)
    if jsTruthy context.heading && hasDynamicSegment then
      match jsElem context.segments ((context.segments.length : Int) - 2) with
      | some parent =>
        if !(parent == "") then
          toTitleCase parent ++ labelJoin ++ headingText context.heading
        else headingText context.heading
      | none => headingText context.heading
    else if jsTruthy context.heading && jsIncludes context.query idMarker then
      match jsElem context.segments ((context.segments.length : Int) - 1) with
      | some parent =>
        if !(parent == "") then
          toTitleCase parent ++ labelJoin ++ headingText context.heading
        else headingText context.heading
      | none => headingText context.heading
    else
      String.intercalate labelJoin
        ((context.segments.drop (context.segments.length - 2)).map
          (fun seg => toTitleCase seg))

/-- `currentUrl`: the canonical identity of a navigation, the normalized
path with the query appended after a question mark iff the query is
non-empty. -/
def currentUrl (pathname : String) (basePath : Option String) (query : String) :
    String :=
  let path := normalizePath pathname basePath
  if !(query == "") then path ++ "?" ++ query else path

/-- A persisted history entry (`SidebarHistoryEntry`). -/
structure SidebarHistoryEntry where
  key : String
  url : String
  label : String
  visitedAt : Nat
deriving DecidableEq

/-- `DEFAULT_MAX_HISTORY` from the source. -/
def DEFAULT_MAX_HISTORY : Nat := 50

/-- A parsed JSON value, as produced by `JSON.parse`. -/
inductive Json where
  | null
  | bool (b : Bool)
  | num (n : Int)
  | str (s : String)
  | arr (elems : List Json)
  | obj (fields : List (String × Json))

/-- The outcome of `JSON.parse` on a raw string: either an exception or a
parsed value. -/
inductive ParseOutcome where
  | failure
  | ok (value : Json)

/-- The observable outcome of reading the backend: `localStorage.getItem`
threw, returned a falsy raw string (absent or empty), or returned a raw
string whose parse has the given outcome. -/
inductive BackendRead where
  | readFailure
  | missing
  | content (outcome : ParseOutcome)

/-- `readHistory` from the source, with the fallible backend read and the
parse modelled as an explicit input: every failure branch and every
non-array parse yields the empty list, and an array is truncated to
`maxHistory` entries without inspecting its elements. -/
def readHistory (read : BackendRead) (maxHistory : Nat) : List Json :=
  match read with
  | .readFailure => []
  | .missing => []
  | .content .failure => []
  | .content (.ok value) =>
    match value with
    | .arr elems => elems.take maxHistory
    | _ => []

/-- JS `Array.prototype.findIndex` on entry lists, with the not-found result
`-1` modelled as `none`. -/
def jsFindIndex (p : SidebarHistoryEntry → Bool) :
    List SidebarHistoryEntry → Option Nat
  | [] => none
  | e :: es => if p e then some 0 else (jsFindIndex p es).map (fun i => i + 1)

/-- The body of the deferred (phase 2) refinement from the source, acting on
the reloaded entry list: bail out when the freshly read heading is falsy,
when no entry carries the phase-1 key, or when the recomputed label equals
the stored one; otherwise replace only that entry's label in place. -/
def phase2 (stored : List SidebarHistoryEntry) (key : String)
    (heading : Option String) (updatedLabel : String) :
    List SidebarHistoryEntry :=
  if !(jsTruthy heading) then stored
  else
    match jsFindIndex (fun e => e.key == key) stored with
    | none => stored
    | some index =>
      match stored.get? index with
      | none => stored
      | some currentEntry =>
        if currentEntry.label == updatedLabel then stored
        else stored.set index { currentEntry with label := updatedLabel }

/-- A pending deferred refinement: the canonical key and the normalized path
and query captured by the navigation that scheduled it. -/
structure PendingRefinement where
  key : String
  pathname : String
  query : String
deriving DecidableEq

/-- The configuration of the component relevant to the visit controller. -/
structure ControllerConfig where
  basePath : Option String
  ignorePaths : Option (List String)
  maxHistory : Nat

/-- The in-memory state of the visit controller: the entry list and the at
most one pending deferred refinement (the single scheduled timer). -/
structure ControllerState where
  entries : List SidebarHistoryEntry
  pending : Option PendingRefinement
deriving DecidableEq

/-- `isIgnored` from the source: the normalized path equals a configured
ignore prefix or is nested under one. -/
def isIgnored (cfg : ControllerConfig) (pathname : String) : Bool :=
  match cfg.ignorePaths with
  | none => false
  | some ps =>
    if ps.length == 0 then false
    else
      ps.any (fun ignored =>
        normalizePath pathname cfg.basePath == ignored ||
          jsStartsWith (normalizePath pathname cfg.basePath) (ignored ++ "/"))

/-- The events driving the controller: a navigation change (carrying the new
path and query, the heading available at that instant, and the clock
reading), and the firing of the scheduled timer (re-reading the heading at
that instant). -/
inductive ControllerEvent where
  | navigate (pathname query : String) (heading : Option String) (now : Nat)
  | fire (heading : Option String)

/-- One step of the visit controller with the default label resolver.  A
navigation always supersedes the pending refinement (the effect cleanup
clears the previous timer before the effect re-runs); on a non-ignored path
it captures the visit and schedules its own refinement.  A timer firing runs
the phase-2 body for the navigation fields it captured and clears the
pending slot. -/
def stepController (cfg : ControllerConfig) (s : ControllerState) :
    ControllerEvent → ControllerState
  | .navigate pathname query heading now =>
    if isIgnored cfg pathname then { s with pending := none }
    else
      let normalizedPath := normalizePath pathname cfg.basePath
      let url := currentUrl pathname cfg.basePath query
      let context : SidebarHistoryLabelContext :=
        { heading := heading, pathname := normalizedPath, query := query,
          segments := pathSegments normalizedPath, url := url }
      let nextEntry : SidebarHistoryEntry :=
        { key := url, url := url, label := defaultLabelResolver context,
          visitedAt := now }
      { entries := (nextEntry ::
          s.entries.filter (fun e => !(e.key == nextEntry.key))).take
            cfg.maxHistory,
        pending := some ⟨url, normalizedPath, query⟩ }
  | .fire heading =>
    match s.pending with
    | none => s
    | some task =>
      let context : SidebarHistoryLabelContext :=
        { heading := heading, pathname := task.pathname, query := task.query,
          segments := pathSegments task.pathname, url := task.key }
      { entries := phase2 s.entries task.key heading
          (defaultLabelResolver context),
        pending := none }

/-- The mutations the store undergoes: a navigation capture (phase 1), a
deferred refinement (phase 2), an explicit removal, and a clear. -/
inductive HistoryOp where
  | visit (entry : SidebarHistoryEntry)
  | refine (key : String) (heading : Option String) (label : String)
  | remove (key : String)
  | clear

/-- Apply one mutation to the entry list, exactly as the source does: a
visit filters out the revisited key, prepends the new entry and truncates to
the cap; a refinement runs the phase-2 body; a removal filters by key; a
clear empties the list. -/
def applyOp (maxHistory : Nat) (entries : List SidebarHistoryEntry) :
    HistoryOp → List SidebarHistoryEntry
  | .visit e =>
    (e :: entries.filter (fun x => !(x.key == e.key))).take maxHistory
  | .refine key heading label => phase2 entries key heading label
  | .remove key => entries.filter (fun x => !(x.key == key))
  | .clear => []

/-- Run a sequence of mutations from the empty store. -/
def runOps (maxHistory : Nat) (ops : List HistoryOp) :
    List SidebarHistoryEntry :=
  ops.foldl (applyOp maxHistory) []

/-- The clock readings of the visit operations of a sequence, in order. -/
def visitTimes (ops : List HistoryOp) : List Nat :=
  ops.filterMap (fun op =>
    match op with
    | .visit e => some e.visitedAt
    | _ => none)

/-- A group of exactly `n` hexadecimal digits, stated on a string. -/
def HexGroup (g : String) (n : Nat) : Prop :=
  g.length = n ∧ ∀ c ∈ g.data, isHexChar c = true

/-- The claim's characterization of a dynamic-identifier segment, written
from its words: a 36-character string of five hyphen-delimited groups of hex
digits in the shape 8-4-4-4-12, the third group beginning with a digit 1
through 5 and the fourth beginning with 8, 9, a or b, letters compared
case-insensitively.  To be compared against `UUID_PATTERN_test`. -/
def UuidShape (s : String) : Prop :=
  s.length = 36 ∧
  ∃ g1 g2 g3 g4 g5 : String,
    s = g1 ++ "-" ++ g2 ++ "-" ++ g3 ++ "-" ++ g4 ++ "-" ++ g5 ∧
    HexGroup g1 8 ∧ HexGroup g2 4 ∧ HexGroup g3 4 ∧ HexGroup g4 4 ∧
    HexGroup g5 12 ∧
    (∃ c rest, g3.data = c :: rest ∧ '1' ≤ c ∧ c ≤ '5') ∧
    (∃ c rest, g4.data = c :: rest ∧
      (c = '8' ∨ c = '9' ∨ c = 'a' ∨ c = 'b' ∨ c = 'A' ∨ c = 'B'))

/-- Appending strings appends their character lists. -/
theorem string_data_append (a b : String) : (a ++ b).data = a.data ++ b.data := by
  obtain ⟨da⟩ := a
  obtain ⟨db⟩ := b
  rfl

theorem startsWithList_length {p cs : List Char}
    (h : startsWithList p cs = true) : p.length ≤ cs.length := by
  induction p generalizing cs with
  | nil => simp
  | cons x xs ih =>
    cases cs with
    | nil => simp [startsWithList] at h
    | cons c cs =>
      simp only [startsWithList, Bool.and_eq_true] at h
      simpa [Nat.succ_le_succ_iff] using ih h.2

/-- C8: loading history from the backend never throws: read failure, a
missing key, parse failure and every non-sequence parse result yield the
empty list, and a parsed sequence yields at most `cap` entries, a prefix of
the stored list, so the stored order is preserved. -/
theorem readHistory_never_throws :
    (∀ cap, readHistory .readFailure cap = []) ∧
    (∀ cap, readHistory .missing cap = []) ∧
    (∀ cap, readHistory (.content .failure) cap = []) ∧
    (∀ cap, readHistory (.content (.ok .null)) cap = []) ∧
    (∀ cap b, readHistory (.content (.ok (.bool b))) cap = []) ∧
    (∀ cap n, readHistory (.content (.ok (.num n))) cap = []) ∧
    (∀ cap s, readHistory (.content (.ok (.str s))) cap = []) ∧
    (∀ cap fs, readHistory (.content (.ok (.obj fs))) cap = []) ∧
    (∀ cap elems, readHistory (.content (.ok (.arr elems))) cap = elems.take cap ∧
      (readHistory (.content (.ok (.arr elems))) cap).length ≤ cap ∧
      readHistory (.content (.ok (.arr elems))) cap ++ elems.drop cap = elems) := by
  refine ⟨fun _ => rfl, fun _ => rfl, fun _ => rfl, fun _ => rfl, fun _ _ => rfl,
    fun _ _ => rfl, fun _ _ => rfl, fun _ _ => rfl, fun cap elems => ⟨rfl, ?_, ?_⟩⟩
  · simp [readHistory, List.length_take]
  · simp [readHistory]

/-- C9 counterexample: a parsed sequence whose single element is the number
3 contains no record with the history-entry fields, yet `readHistory`
returns it unchanged instead of treating the shape mismatch as an empty
history. -/
theorem readHistory_returns_nonrecord_elements :
    readHistory (.content (.ok (.arr [.num 3]))) DEFAULT_MAX_HISTORY = [.num 3] ∧
    ([Json.num 3] : List Json) ≠ [] := ⟨rfl, by simp⟩

/-- A non-empty list has non-zero length, stated on the boolean test. -/
theorem beq_len_false {l : List String} (h : l ≠ []) : (l.length == 0) = false := by
  simp only [beq_eq_false_iff_ne, ne_eq, List.length_eq_zero]
  exact h

/-- C4: for every context with at least one segment that is not handled by
the heading rules (heading absent, or heading present but no
dynamic-identifier segment and the query not containing the id marker), the
default resolver returns the last two segments (the single segment if only
one exists), each title-cased, joined with the separator; in particular
segments docs, intro with no heading yield the label Docs / Intro. -/
theorem defaultLabelResolver_fallback (context : SidebarHistoryLabelContext)
    (hseg : context.segments ≠ [])
    (hcase : context.heading = none ∨
      (context.segments.any (fun seg => UUID_PATTERN_test seg) = false ∧
        jsIncludes context.query idMarker = false)) :
    defaultLabelResolver context =
      String.intercalate labelJoin
        ((context.segments.drop (context.segments.length - 2)).map
          (fun seg => toTitleCase seg)) ∧
    defaultLabelResolver ⟨none, "/docs/intro", "", ["docs", "intro"], "/docs/intro"⟩
      = "Docs / Intro" := by
  constructor
  · have hlen := beq_len_false hseg
    rcases hcase with h | ⟨hdyn, hq⟩
    · simp [defaultLabelResolver, hlen, h, jsTruthy]
    · simp [defaultLabelResolver, hlen, hdyn, hq]
  · decide

/-- C2 (amended): for every context with at least one segment and a
non-empty heading: if some segment matches the dynamic-identifier shape,
the default resolver returns the title-cased second-to-last segment, the
separator and the heading when the second-to-last segment exists and is
non-empty, and the heading alone otherwise; else if the query contains the
id marker, it returns the title-cased last segment, the separator and the
heading when the last segment is non-empty, and the heading alone when it is
empty.  In particular scenario B yields Users / Jane Doe and scenario C
yields Reports / Q3 Summary. -/
theorem defaultLabelResolver_heading_rules (context : SidebarHistoryLabelContext)
    (h : String) (hseg : context.segments ≠ [])
    (hh : context.heading = some h) (hne : h ≠ "") :
    ((context.segments.any (fun seg => UUID_PATTERN_test seg) = true →
      (∀ parent, jsElem context.segments ((context.segments.length : Int) - 2) = some parent →
        parent ≠ "" → defaultLabelResolver context = toTitleCase parent ++ labelJoin ++ h) ∧
      (∀ parent, jsElem context.segments ((context.segments.length : Int) - 2) = some parent →
        parent = "" → defaultLabelResolver context = h) ∧
      (jsElem context.segments ((context.segments.length : Int) - 2) = none →
        defaultLabelResolver context = h)) ∧
    (context.segments.any (fun seg => UUID_PATTERN_test seg) = false →
      jsIncludes context.query idMarker = true →
      (∀ parent, jsElem context.segments ((context.segments.length : Int) - 1) = some parent →
        parent ≠ "" → defaultLabelResolver context = toTitleCase parent ++ labelJoin ++ h) ∧
      (∀ parent, jsElem context.segments ((context.segments.length : Int) - 1) = some parent →
        parent = "" → defaultLabelResolver context = h))) ∧
    defaultLabelResolver ⟨some ("Jane Doe"),
      "/users/123e4567-e89b-12d3-a456-426614174000", "",
      ["users", "123e4567-e89b-12d3-a456-426614174000"],
      "/users/123e4567-e89b-12d3-a456-426614174000"⟩ = "Users / Jane Doe" ∧
    defaultLabelResolver ⟨some ("Q3 Summary"), "/reports", "report_id=42",
      ["reports"], "/reports?report_id=42"⟩ = "Reports / Q3 Summary" := by
  have hlen := beq_len_false hseg
  have htr : jsTruthy (some h) = true := by
    simp [jsTruthy, hne]
  refine ⟨⟨?_, ?_⟩, by decide, by decide⟩
  · intro hdyn
    refine ⟨?_, ?_, ?_⟩
    · intro parent hp hpne
      simp [defaultLabelResolver, hlen, htr, hdyn, hp, hpne, hh, headingText]
    · intro parent hp hpe
      simp [defaultLabelResolver, hlen, htr, hdyn, hp, hpe, hh, headingText]
    · intro hp
      simp [defaultLabelResolver, hlen, htr, hdyn, hp, hh, headingText]
  · intro hdyn hq
    refine ⟨?_, ?_⟩
    · intro parent hp hpne
      simp [defaultLabelResolver, hlen, htr, hdyn, hq, hp, hpne, hh, headingText]
    · intro parent hp hpe
      simp [defaultLabelResolver, hlen, htr, hdyn, hq, hp, hpe, hh, headingText]

/-- C2 counterexample: with the non-null but empty heading, a
dynamic-identifier segment and the second-to-last segment users, the claim
as stated predicts the label made of the title-cased parent, the separator
and the empty heading, but the resolver ignores the falsy heading and falls
through to the segment rule. -/
theorem defaultLabelResolver_empty_heading_counterexample :
    (["users", "123e4567-e89b-12d3-a456-426614174000"].any
      (fun seg => UUID_PATTERN_test seg)) = true ∧
    defaultLabelResolver ⟨some (""),
      "/users/123e4567-e89b-12d3-a456-426614174000", "",
      ["users", "123e4567-e89b-12d3-a456-426614174000"],
      "/users/123e4567-e89b-12d3-a456-426614174000"⟩ =
      "Users / 123e4567 E89b 12d3 A456 426614174000" ∧
    ("Users / 123e4567 E89b 12d3 A456 426614174000" : String) ≠
      toTitleCase ("users") ++ labelJoin ++ "" := by
  refine ⟨by decide, by decide, by decide⟩

/-- Witness for C2 at scenario B. -/
theorem defaultLabelResolver_heading_rules_witness :
    defaultLabelResolver ⟨some ("Jane Doe"),
      "/users/123e4567-e89b-12d3-a456-426614174000", "",
      ["users", "123e4567-e89b-12d3-a456-426614174000"],
      "/users/123e4567-e89b-12d3-a456-426614174000"⟩ =
      toTitleCase ("users") ++ labelJoin ++ "Jane Doe" := by
  exact (((defaultLabelResolver_heading_rules _ ("Jane Doe") (by decide) rfl
    (by decide)).1.1 (by decide)).1 ("users") (by decide) (by decide))

/-- C5 counterexample: with the configured empty prefix and the empty
pathname, the pathname equals the prefix exactly, but the normalized path is
the pathname itself and not the root path, because an empty base path is
falsy in JS. -/
theorem normalizePath_empty_basePath_counterexample :
    normalizePath ("") (some ("")) = "" ∧ ("" : String) ≠ "/" := ⟨by decide, by decide⟩

/-- C5 (amended): for every raw pathname, configured non-empty prefix and
query string: if the pathname starts with the prefix followed by a slash,
the prefix is stripped; if the pathname equals the prefix exactly, the
normalized path is the root path; the canonical identity equals the
normalized path with the query appended after a question mark exactly when
the query is non-empty, and it is used as both the key and the url of the
entry captured by a navigation.  Normalization is a total function. -/
theorem normalizePath_currentUrl_spec (p bp query : String) (hbp : bp ≠ "") :
    (jsStartsWith p (bp ++ "/") = true →
      normalizePath p (some bp) = jsSliceFrom p bp.length) ∧
    (p = bp → normalizePath p (some bp) = "/") ∧
    (∀ basePath, query ≠ "" →
      currentUrl p basePath query = normalizePath p basePath ++ "?" ++ query) ∧
    (∀ basePath, currentUrl p basePath "" = normalizePath p basePath) ∧
    (∀ cfg s heading now, isIgnored cfg p = false → 1 ≤ cfg.maxHistory →
      (stepController cfg s (.navigate p query heading now)).entries.head? =
        some ⟨currentUrl p cfg.basePath query, currentUrl p cfg.basePath query,
          defaultLabelResolver ⟨heading, normalizePath p cfg.basePath, query,
            pathSegments (normalizePath p cfg.basePath),
            currentUrl p cfg.basePath query⟩, now⟩) := by
  have hbp' : (bp == "") = false := by
    simp only [beq_eq_false_iff_ne, ne_eq]
    exact hbp
  refine ⟨?_, ?_, ?_, ?_, ?_⟩
  · intro hst
    simp [normalizePath, hbp', hst]
  · intro hpe
    subst hpe
    have hff : jsStartsWith p (p ++ "/") = false := by
      cases hq : jsStartsWith p (p ++ "/") with
      | false => rfl
      | true =>
        exfalso
        have hlen := startsWithList_length hq
        rw [string_data_append, List.length_append] at hlen
        simp at hlen
    simp [normalizePath, hbp', hff]
  · intro basePath hq
    have hq' : (query == "") = false := by
      simp only [beq_eq_false_iff_ne, ne_eq]
      exact hq
    simp [currentUrl, hq']
  · intro basePath
    simp [currentUrl]
  · intro cfg s heading now hig hcap
    cases hm : cfg.maxHistory with
    | zero => omega
    | succ n =>
      simp [stepController, hig, hm, List.take_succ_cons]

theorem jsFindIndex_some {p : SidebarHistoryEntry → Bool}
    {l : List SidebarHistoryEntry} {i : Nat} (h : jsFindIndex p l = some i) :
    ∃ e, l.get? i = some e ∧ p e = true := by
  induction l generalizing i with
  | nil => simp [jsFindIndex] at h
  | cons x xs ih =>
    rw [jsFindIndex] at h
    by_cases hx : p x = true
    · rw [if_pos hx] at h
      cases h
      exact ⟨x, rfl, hx⟩
    · rw [if_neg hx] at h
      cases hfx : jsFindIndex p xs with
      | none =>
        rw [hfx] at h
        cases h
      | some j =>
        rw [hfx, Option.map_some'] at h
        cases h
        obtain ⟨e, he, hpe⟩ := ih hfx
        exact ⟨e, by simpa using he, hpe⟩

theorem jsFindIndex_none {p : SidebarHistoryEntry → Bool}
    {l : List SidebarHistoryEntry} (h : ∀ e ∈ l, p e = false) :
    jsFindIndex p l = none := by
  induction l with
  | nil => rfl
  | cons x xs ih =>
    rw [jsFindIndex, if_neg (by simp [h x (by simp)]),
      ih (fun e he => h e (by simp [he])), Option.map_none']

theorem set_self_of_get? {α : Type _} {l : List α} {i : Nat} {a : α}
    (h : l.get? i = some a) : l.set i a = l := by
  induction l generalizing i with
  | nil => simp at h
  | cons x xs ih =>
    cases i with
    | zero =>
      simp only [List.get?_cons_zero, Option.some.injEq] at h
      simp [h]
    | succ n =>
      simp only [List.get?_cons_succ] at h
      simp [ih h]

/-- C7: when the deferred refinement runs, the store is left unchanged if no
heading is available, if no entry carries the phase-1 canonical key, or if
the recomputed label equals the stored one; otherwise only that entry's
label field is replaced, and its key, url, timestamp, its position and every
other entry are unchanged, as is the length of the list. -/
theorem phase2_frame (stored : List SidebarHistoryEntry) (key : String)
    (heading : Option String) (updatedLabel : String) :
    (heading = none → phase2 stored key heading updatedLabel = stored) ∧
    (jsFindIndex (fun e => e.key == key) stored = none →
      phase2 stored key heading updatedLabel = stored) ∧
    (∀ index currentEntry,
      jsFindIndex (fun e => e.key == key) stored = some index →
      stored.get? index = some currentEntry →
      (currentEntry.label = updatedLabel →
        phase2 stored key heading updatedLabel = stored) ∧
      (currentEntry.label ≠ updatedLabel → jsTruthy heading = true →
        phase2 stored key heading updatedLabel =
          stored.set index { currentEntry with label := updatedLabel } ∧
        (phase2 stored key heading updatedLabel).get? index =
          some ⟨currentEntry.key, currentEntry.url, updatedLabel,
            currentEntry.visitedAt⟩ ∧
        (∀ j, j ≠ index → (phase2 stored key heading updatedLabel).get? j =
          stored.get? j) ∧
        (phase2 stored key heading updatedLabel).length = stored.length)) := by
  refine ⟨?_, ?_, ?_⟩
  · intro hnone
    simp [phase2, hnone, jsTruthy]
  · intro hfind
    cases htr : jsTruthy heading with
    | false => simp [phase2, htr]
    | true => simp [phase2, htr, hfind]
  · intro index currentEntry hfind hget
    have hget' : stored[index]? = some currentEntry := by
      rw [← List.get?_eq_getElem?]
      exact hget
    constructor
    · intro heq
      cases htr : jsTruthy heading with
      | false => simp [phase2, htr]
      | true => simp [phase2, htr, hfind, hget', heq]
    · intro hne htr
      have hstep : phase2 stored key heading updatedLabel =
          stored.set index { currentEntry with label := updatedLabel } := by
        simp [phase2, htr, hfind, hget', hne]
      have hlt : index < stored.length := by
        by_contra hge
        rw [List.get?_eq_none.mpr (Nat.le_of_not_lt hge)] at hget
        exact Option.noConfusion hget
      refine ⟨hstep, ?_, ?_, ?_⟩
      · rw [hstep]
        simp [List.get?_eq_getElem?, List.getElem?_set_self hlt]
      · intro j hj
        rw [hstep, List.get?_eq_getElem?, List.get?_eq_getElem?,
          List.getElem?_set_ne (Ne.symm hj)]
      · rw [hstep]
        simp [List.length_set]

theorem phase2_preserves_other_keys {stored : List SidebarHistoryEntry}
    {key : String} {heading : Option String} {lbl : String} {j : Nat}
    {e : SidebarHistoryEntry} (hj : stored.get? j = some e)
    (hne : e.key ≠ key) :
    (phase2 stored key heading lbl).get? j = stored.get? j := by
  cases htr : jsTruthy heading with
  | false => simp [phase2, htr]
  | true =>
    cases hfind : jsFindIndex (fun x => x.key == key) stored with
    | none => simp [phase2, htr, hfind]
    | some i =>
      obtain ⟨w, hw, hpw⟩ := jsFindIndex_some hfind
      have hji : j ≠ i := by
        intro hji
        subst hji
        rw [hj] at hw
        cases hw
        exact hne (by simpa using hpw)
      have hw' : stored[i]? = some w := by
        rw [← List.get?_eq_getElem?]
        exact hw
      by_cases hlab : w.label = lbl
      · simp [phase2, htr, hfind, hw', hlab]
      · have hstep : phase2 stored key heading lbl =
            stored.set i { w with label := lbl } := by
          simp [phase2, htr, hfind, hw', hlab]
        rw [hstep, List.get?_eq_getElem?, List.get?_eq_getElem?,
          List.getElem?_set_ne (fun hh => hji hh.symm)]

theorem phase2_no_matching_key {stored : List SidebarHistoryEntry}
    {key : String} {heading : Option String} {lbl : String}
    (h : ∀ e ∈ stored, e.key ≠ key) :
    phase2 stored key heading lbl = stored := by
  have hfind : jsFindIndex (fun x => x.key == key) stored = none :=
    jsFindIndex_none (fun e he => by
      simp only [beq_eq_false_iff_ne, ne_eq]
      exact h e he)
  cases htr : jsTruthy heading with
  | false => simp [phase2, htr]
  | true => simp [phase2, htr, hfind]

/-- C6: a navigation event always supersedes the pending deferred
refinement, leaving either no pending refinement (ignored path) or exactly
the one scheduled by this navigation with its own canonical key; and a
firing refinement never mutates an entry whose key differs from the key its
navigation computed, and is a complete no-op when no entry carries that
key. -/
theorem deferred_refinement_protocol (cfg : ControllerConfig)
    (s : ControllerState) (pathname query : String)
    (heading : Option String) (now : Nat) :
    ((stepController cfg s (.navigate pathname query heading now)).pending =
      if isIgnored cfg pathname then none
      else some ⟨currentUrl pathname cfg.basePath query,
        normalizePath pathname cfg.basePath, query⟩) ∧
    (∀ task h2 j e, s.pending = some task → s.entries.get? j = some e →
      e.key ≠ task.key →
      (stepController cfg s (.fire h2)).entries.get? j = some e) ∧
    (∀ task h2, s.pending = some task →
      (∀ e ∈ s.entries, e.key ≠ task.key) →
      (stepController cfg s (.fire h2)).entries = s.entries) := by
  refine ⟨?_, ?_, ?_⟩
  · cases hig : isIgnored cfg pathname with
    | true => simp [stepController, hig]
    | false => simp [stepController, hig]
  · intro task h2 j e hp hj hne
    simp only [stepController, hp]
    rw [phase2_preserves_other_keys hj hne]
    exact hj
  · intro task h2 hp hall
    simp only [stepController, hp]
    exact phase2_no_matching_key hall

theorem visitTimes_cons_visit (e : SidebarHistoryEntry) (ops : List HistoryOp) :
    visitTimes (.visit e :: ops) = e.visitedAt :: visitTimes ops := rfl

theorem visitTimes_cons_refine (k : String) (hd : Option String) (lb : String)
    (ops : List HistoryOp) :
    visitTimes (.refine k hd lb :: ops) = visitTimes ops := rfl

theorem visitTimes_cons_remove (k : String) (ops : List HistoryOp) :
    visitTimes (.remove k :: ops) = visitTimes ops := rfl

theorem visitTimes_cons_clear (ops : List HistoryOp) :
    visitTimes (.clear :: ops) = visitTimes ops := rfl

theorem phase2_map_key (stored : List SidebarHistoryEntry) (key : String)
    (heading : Option String) (lbl : String) :
    (phase2 stored key heading lbl).map (fun e => e.key) =
      stored.map (fun e => e.key) := by
  cases htr : jsTruthy heading with
  | false => simp [phase2, htr]
  | true =>
    cases hfind : jsFindIndex (fun x => x.key == key) stored with
    | none => simp [phase2, htr, hfind]
    | some i =>
      obtain ⟨w, hw, hpw⟩ := jsFindIndex_some hfind
      have hw' : stored[i]? = some w := by
        rw [← List.get?_eq_getElem?]
        exact hw
      by_cases hlab : w.label = lbl
      · simp [phase2, htr, hfind, hw', hlab]
      · have hstep : phase2 stored key heading lbl =
            stored.set i { w with label := lbl } := by
          simp [phase2, htr, hfind, hw', hlab]
        rw [hstep, List.map_set]
        exact set_self_of_get? (by
          rw [List.get?_eq_getElem?, List.getElem?_map, ← List.get?_eq_getElem?, hw]
          rfl)

theorem phase2_map_visitedAt (stored : List SidebarHistoryEntry) (key : String)
    (heading : Option String) (lbl : String) :
    (phase2 stored key heading lbl).map (fun e => e.visitedAt) =
      stored.map (fun e => e.visitedAt) := by
  cases htr : jsTruthy heading with
  | false => simp [phase2, htr]
  | true =>
    cases hfind : jsFindIndex (fun x => x.key == key) stored with
    | none => simp [phase2, htr, hfind]
    | some i =>
      obtain ⟨w, hw, hpw⟩ := jsFindIndex_some hfind
      have hw' : stored[i]? = some w := by
        rw [← List.get?_eq_getElem?]
        exact hw
      by_cases hlab : w.label = lbl
      · simp [phase2, htr, hfind, hw', hlab]
      · have hstep : phase2 stored key heading lbl =
            stored.set i { w with label := lbl } := by
          simp [phase2, htr, hfind, hw', hlab]
        rw [hstep, List.map_set]
        exact set_self_of_get? (by
          rw [List.get?_eq_getElem?, List.getElem?_map, ← List.get?_eq_getElem?, hw]
          rfl)

theorem phase2_mem {stored : List SidebarHistoryEntry} {key : String}
    {heading : Option String} {lbl : String} {x : SidebarHistoryEntry}
    (hx : x ∈ phase2 stored key heading lbl) :
    x.visitedAt ∈ stored.map (fun e => e.visitedAt) := by
  have := congrArg (fun l => x.visitedAt ∈ l)
    (phase2_map_visitedAt stored key heading lbl)
  have hx' : x.visitedAt ∈ (phase2 stored key heading lbl).map
      (fun e => e.visitedAt) := List.mem_map.mpr ⟨x, hx, rfl⟩
  rw [phase2_map_visitedAt] at hx'
  exact hx'

theorem visit_keys_nodup {l : List SidebarHistoryEntry}
    (e : SidebarHistoryEntry) (cap : Nat)
    (hnd : (l.map (fun x => x.key)).Nodup) :
    (((e :: l.filter (fun x => !(x.key == e.key))).take cap).map
      (fun x => x.key)).Nodup := by
  have hsub : List.Sublist
      (((e :: l.filter (fun x => !(x.key == e.key))).take cap).map
        (fun x => x.key))
      ((e :: l.filter (fun x => !(x.key == e.key))).map (fun x => x.key)) :=
    (List.take_sublist _ _).map _
  refine hsub.nodup ?_
  rw [List.map_cons, List.nodup_cons]
  constructor
  · intro hmem
    obtain ⟨y, hy, hyk⟩ := List.mem_map.mp hmem
    have := (List.mem_filter.mp hy).2
    rw [hyk] at this
    simp at this
  · exact ((List.filter_sublist l).map _).nodup hnd

theorem filter_ne_key_length {l : List SidebarHistoryEntry} {k : String}
    (hnd : (l.map (fun e => e.key)).Nodup) (hx : ∃ x ∈ l, x.key = k) :
    (l.filter (fun x => !(x.key == k))).length + 1 = l.length := by
  induction l with
  | nil => simp at hx
  | cons y ys ih =>
    simp only [List.map_cons, List.nodup_cons] at hnd
    by_cases hy : y.key = k
    · have hfy : ys.filter (fun x => !(x.key == k)) = ys := by
        rw [List.filter_eq_self]
        intro z hz
        simp only [Bool.not_eq_true', beq_eq_false_iff_ne, ne_eq]
        intro hzk
        exact hnd.1 (List.mem_map.mpr ⟨z, hz, by rw [hzk, hy]⟩)
      rw [List.filter_cons_of_neg (by simp [hy]), hfy]
      simp
    · have hxys : ∃ x ∈ ys, x.key = k := by
        obtain ⟨x, hxmem, hxk⟩ := hx
        rcases List.mem_cons.mp hxmem with rfl | hmem
        · exact absurd hxk hy
        · exact ⟨x, hmem, hxk⟩
      rw [List.filter_cons_of_pos (by simp [hy])]
      simp only [List.length_cons]
      rw [ih hnd.2 hxys]

theorem runOps_inv (cap : Nat) :
    ∀ (ops : List HistoryOp) (s : List SidebarHistoryEntry),
      s.length ≤ cap →
      (s.map (fun e => e.key)).Nodup →
      List.Sorted (· ≥ ·) (s.map (fun e => e.visitedAt)) →
      List.Sorted (· ≤ ·) (visitTimes ops) →
      (∀ x ∈ s, ∀ t ∈ visitTimes ops, x.visitedAt ≤ t) →
      (ops.foldl (applyOp cap) s).length ≤ cap ∧
      ((ops.foldl (applyOp cap) s).map (fun e => e.key)).Nodup ∧
      List.Sorted (· ≥ ·)
        ((ops.foldl (applyOp cap) s).map (fun e => e.visitedAt)) := by
  intro ops
  induction ops with
  | nil =>
    intro s h1 h2 h3 _ _
    exact ⟨h1, h2, h3⟩
  | cons op rest ih =>
    intro s h1 h2 h3 hops hcross
    rw [List.foldl_cons]
    cases op with
    | visit e =>
      rw [visitTimes_cons_visit] at hops hcross
      obtain ⟨hhead, hrest⟩ := List.sorted_cons.mp hops
      have hse : ∀ x ∈ s, x.visitedAt ≤ e.visitedAt :=
        fun x hx => hcross x hx e.visitedAt (List.mem_cons_self _ _)
      have happ : applyOp cap s (.visit e) =
          (e :: s.filter (fun x => !(x.key == e.key))).take cap := rfl
      apply ih
      · rw [happ, List.length_take]
        exact Nat.min_le_left _ _
      · rw [happ]
        exact visit_keys_nodup e cap h2
      · rw [happ]
        refine List.Pairwise.sublist ((List.take_sublist _ _).map _) ?_
        rw [List.map_cons, List.pairwise_cons]
        constructor
        · intro b hb
          obtain ⟨y, hy, rfl⟩ := List.mem_map.mp hb
          exact hse y ((List.filter_sublist s).subset hy)
        · exact List.Pairwise.sublist ((List.filter_sublist s).map _) h3
      · exact hrest
      · intro x hx t ht
        have hx' : x ∈ e :: s.filter (fun y => !(y.key == e.key)) := by
          rw [happ] at hx
          exact (List.take_subset _ _) hx
        rcases List.mem_cons.mp hx' with rfl | hxf
        · exact hhead t ht
        · exact hcross x ((List.filter_sublist s).subset hxf) t
            (List.mem_cons_of_mem _ ht)
    | refine k hd lb =>
      rw [visitTimes_cons_refine] at hops hcross
      have happ : applyOp cap s (.refine k hd lb) = phase2 s k hd lb := rfl
      have hlenp : (phase2 s k hd lb).length = s.length := by
        have hm := congrArg List.length (phase2_map_key s k hd lb)
        simpa using hm
      apply ih
      · rw [happ, hlenp]
        exact h1
      · rw [happ, phase2_map_key]
        exact h2
      · rw [happ, phase2_map_visitedAt]
        exact h3
      · exact hops
      · intro x hx t ht
        rw [happ] at hx
        obtain ⟨y, hy, hyt⟩ := List.mem_map.mp (phase2_mem hx)
        rw [← hyt]
        exact hcross y hy t ht
    | remove k =>
      rw [visitTimes_cons_remove] at hops hcross
      have happ : applyOp cap s (.remove k) =
          s.filter (fun x => !(x.key == k)) := rfl
      apply ih
      · rw [happ]
        exact Nat.le_trans (List.length_filter_le _ _) h1
      · rw [happ]
        exact List.Pairwise.sublist ((List.filter_sublist s).map _) h2
      · rw [happ]
        exact List.Pairwise.sublist ((List.filter_sublist s).map _) h3
      · exact hops
      · intro x hx t ht
        rw [happ] at hx
        exact hcross x ((List.filter_sublist s).subset hx) t ht
    | clear =>
      rw [visitTimes_cons_clear] at hops hcross
      have happ : applyOp cap s .clear = [] := rfl
      apply ih
      · rw [happ]
        exact Nat.zero_le cap
      · rw [happ]
        exact List.nodup_nil
      · rw [happ]
        exact List.sorted_nil
      · exact hops
      · intro x hx
        rw [happ] at hx
        exact absurd hx (List.not_mem_nil x)

/-- C1: starting from the empty store, after any sequence of navigation
captures, deferred refinements, removals and clears whose visit timestamps
are non-decreasing, the store holds at most `maxHistory` entries, no two
entries share a key, and entries are ordered most-recent-visit-first; and
re-visiting an already-present key moves that key's entry to position 0
without increasing the entry count or duplicating a key. -/
theorem history_store_invariants (cap : Nat) (ops : List HistoryOp)
    (hmono : List.Sorted (· ≤ ·) (visitTimes ops)) :
    (runOps cap ops).length ≤ cap ∧
    ((runOps cap ops).map (fun e => e.key)).Nodup ∧
    List.Sorted (· ≥ ·) ((runOps cap ops).map (fun e => e.visitedAt)) ∧
    (∀ e : SidebarHistoryEntry, (∃ x ∈ runOps cap ops, x.key = e.key) →
      (applyOp cap (runOps cap ops) (.visit e)).head? = some e ∧
      (applyOp cap (runOps cap ops) (.visit e)).length =
        (runOps cap ops).length ∧
      ((applyOp cap (runOps cap ops) (.visit e)).map (fun x => x.key)).Nodup) := by
  obtain ⟨h1, h2, h3⟩ := runOps_inv cap ops [] (by simp) (by simp) (by simp)
    hmono (by simp)
  refine ⟨h1, h2, h3, ?_⟩
  intro e hex
  have hlen : ((runOps cap ops).filter
      (fun x => !(x.key == e.key))).length + 1 = (runOps cap ops).length :=
    filter_ne_key_length h2 hex
  have happ : applyOp cap (runOps cap ops) (.visit e) =
      (e :: (runOps cap ops).filter (fun x => !(x.key == e.key))).take cap :=
    rfl
  have hcap1 : 1 ≤ cap := by
    obtain ⟨x, hx, _⟩ := hex
    have hpos : 0 < (runOps cap ops).length :=
      List.length_pos.mpr (List.ne_nil_of_mem hx)
    have hle : (runOps cap ops).length ≤ cap := h1
    omega
  obtain ⟨m, hm⟩ : ∃ m, cap = m + 1 := ⟨cap - 1, by omega⟩
  refine ⟨?_, ?_, ?_⟩
  · rw [happ, hm, List.take_succ_cons]
    rfl
  · rw [happ, List.length_take, List.length_cons, hlen]
    exact Nat.min_eq_right h1
  · rw [happ]
    exact visit_keys_nodup e cap h2

theorem string_eq_of_data {a b : String} (h : a.data = b.data) : a = b := by
  cases a
  cases b
  exact congrArg String.mk h

theorem runOf_eq_some {p : Char → Bool} :
    ∀ {n : Nat} {cs cs' : List Char},
      runOf p n cs = some cs' ↔
        ∃ pre, cs = pre ++ cs' ∧ pre.length = n ∧ ∀ c ∈ pre, p c = true := by
  intro n
  induction n with
  | zero =>
    intro cs cs'
    constructor
    · intro h
      cases h
      exact ⟨[], by simp, rfl, by simp⟩
    · rintro ⟨pre, hpre, hlen, _⟩
      have hnil : pre = [] := List.length_eq_zero.mp hlen
      subst hnil
      simp only [List.nil_append] at hpre
      subst hpre
      rfl
  | succ n ih =>
    intro cs cs'
    cases cs with
    | nil =>
      constructor
      · intro h
        cases h
      · rintro ⟨pre, hpre, hlen, _⟩
        exfalso
        have hl := congrArg List.length hpre
        rw [List.length_append, hlen] at hl
        simp only [List.length_nil] at hl
        omega
      | cons c cs =>
      constructor
      · intro h
        rw [runOf] at h
        by_cases hc : p c = true
        · rw [if_pos hc] at h
          obtain ⟨pre, hpre, hlen, hall⟩ := ih.mp h
          refine ⟨c :: pre, by simp [hpre], by simp [hlen], ?_⟩
          intro a ha
          rcases List.mem_cons.mp ha with rfl | ha
          · exact hc
          · exact hall a ha
        · rw [if_neg hc] at h
          cases h
      · rintro ⟨pre, hpre, hlen, hall⟩
        cases pre with
        | nil => simp at hlen
        | cons d pre =>
          simp only [List.cons_append, List.cons.injEq] at hpre
          obtain ⟨rfl, hpre⟩ := hpre
          rw [runOf, if_pos (hall c (by simp))]
          exact ih.mpr ⟨pre, hpre, by simpa using hlen,
            fun a ha => hall a (by simp [ha])⟩

theorem expectDash_eq_some {cs cs' : List Char} :
    expectDash cs = some cs' ↔ cs = '-' :: cs' := by
  cases cs with
  | nil =>
    constructor
    · intro h
      cases h
    · intro h
      cases h
  | cons c cs =>
    rw [expectDash]
    by_cases hc : (c == '-') = true
    · have hce : c = '-' := by simpa using hc
      subst hce
      rw [if_pos hc]
      constructor
      · intro h
        cases h
        rfl
      · intro h
        simp only [List.cons.injEq] at h
        rw [h.2]
    · rw [if_neg hc]
      constructor
      · intro h
        cases h
      · intro h
        simp only [List.cons.injEq] at h
        exact absurd (by simp [h.1]) hc

theorem UUID_PATTERN_test_eq_true_iff {s : String} :
    UUID_PATTERN_test s = true ↔ uuidMatcher s.data = some [] := by
  rw [UUID_PATTERN_test]
  cases hm : uuidMatcher s.data with
  | none => simp
  | some l =>
    cases l with
    | nil => simp
    | cons a as => simp

theorem isVersionChar_iff {c : Char} :
    isVersionChar c = true ↔ '1' ≤ c ∧ c ≤ '5' := by
  simp [isVersionChar]

theorem isVariantChar_iff {c : Char} :
    isVariantChar c = true ↔
      c = '8' ∨ c = '9' ∨ c = 'a' ∨ c = 'b' ∨ c = 'A' ∨ c = 'B' := by
  simp [isVariantChar]
  tauto

theorem isHexChar_of_isVersionChar {c : Char} (h : isVersionChar c = true) :
    isHexChar c = true := by
  rw [isVersionChar_iff] at h
  simp only [isHexChar, Bool.or_eq_true, Bool.and_eq_true, decide_eq_true_eq]
  exact Or.inl (Or.inl ⟨le_trans (by decide) h.1, le_trans h.2 (by decide)⟩)

theorem isHexChar_of_isVariantChar {c : Char} (h : isVariantChar c = true) :
    isHexChar c = true := by
  rw [isVariantChar_iff] at h
  rcases h with rfl | rfl | rfl | rfl | rfl | rfl <;> decide

theorem mk_data (l : List Char) : (String.mk l).data = l := rfl

/-- C3: a path segment is detected as a dynamic-identifier segment if and
only if it is a 36-character string of five hyphen-delimited groups of
hexadecimal digits in the shape 8-4-4-4-12 whose third group begins with a
digit 1 through 5 and whose fourth group begins with 8, 9, a or b, letters
compared case-insensitively. -/
theorem UUID_PATTERN_test_iff_UuidShape (s : String) :
    UUID_PATTERN_test s = true ↔ UuidShape s := by
  rw [UUID_PATTERN_test_eq_true_iff]
  constructor
  · intro h
    rw [uuidMatcher] at h
    obtain ⟨r10, hchain10, h11⟩ := Option.bind_eq_some.mp h
    obtain ⟨r9, hchain9, h10⟩ := Option.bind_eq_some.mp hchain10
    obtain ⟨r8, hchain8, h9⟩ := Option.bind_eq_some.mp hchain9
    obtain ⟨r7, hchain7, h8⟩ := Option.bind_eq_some.mp hchain8
    obtain ⟨r6, hchain6, h7⟩ := Option.bind_eq_some.mp hchain7
    obtain ⟨r5, hchain5, h6⟩ := Option.bind_eq_some.mp hchain6
    obtain ⟨r4, hchain4, h5⟩ := Option.bind_eq_some.mp hchain5
    obtain ⟨r3, hchain3, h4⟩ := Option.bind_eq_some.mp hchain4
    obtain ⟨r2, hchain2, h3⟩ := Option.bind_eq_some.mp hchain3
    obtain ⟨r1, h1, h2⟩ := Option.bind_eq_some.mp hchain2
    obtain ⟨a1, ha1, hl1, hall1⟩ := runOf_eq_some.mp h1
    have hd2 := expectDash_eq_some.mp h2
    obtain ⟨a2, ha2, hl2, hall2⟩ := runOf_eq_some.mp h3
    have hd4 := expectDash_eq_some.mp h4
    obtain ⟨a3, ha3, hl3, hall3⟩ := runOf_eq_some.mp h5
    obtain ⟨a4, ha4, hl4, hall4⟩ := runOf_eq_some.mp h6
    have hd7 := expectDash_eq_some.mp h7
    obtain ⟨a5, ha5, hl5, hall5⟩ := runOf_eq_some.mp h8
    obtain ⟨a6, ha6, hl6, hall6⟩ := runOf_eq_some.mp h9
    have hd10 := expectDash_eq_some.mp h10
    obtain ⟨a7, ha7, hl7, hall7⟩ := runOf_eq_some.mp h11
    obtain ⟨vc, hvc⟩ := List.length_eq_one.mp hl3
    obtain ⟨wc, hwc⟩ := List.length_eq_one.mp hl5
    rw [List.append_nil] at ha7
    have hdata : s.data =
        a1 ++ '-' :: (a2 ++ '-' :: (vc :: (a4 ++ '-' ::
          (wc :: (a6 ++ '-' :: a7))))) := by
      rw [ha1, hd2, ha2, hd4, ha3, hvc, ha4, hd7, ha5, hwc, ha6, hd10, ha7]
      simp [List.append_assoc]
    have hvcv : isVersionChar vc = true := hall3 vc (by simp [hvc])
    have hwcv : isVariantChar wc = true := hall5 wc (by simp [hwc])
    refine ⟨?_, String.mk a1, String.mk a2, String.mk (vc :: a4),
      String.mk (wc :: a6), String.mk a7, ?_, ⟨hl1, hall1⟩, ⟨hl2, hall2⟩,
      ?_, ?_, ⟨hl7, hall7⟩, ?_, ?_⟩
    · show s.data.length = 36
      rw [hdata]
      simp [List.length_append, hl1, hl2, hl4, hl6]
      omega
    · apply string_eq_of_data
      rw [hdata]
      simp [string_data_append, mk_data, List.append_assoc]
    · refine ⟨?_, ?_⟩
      · show (vc :: a4).length = 4
        simp [hl4]
      · intro c hc
        rcases List.mem_cons.mp hc with rfl | hc
        · exact isHexChar_of_isVersionChar hvcv
        · exact hall4 c hc
    · refine ⟨?_, ?_⟩
      · show (wc :: a6).length = 4
        simp [hl6]
      · intro c hc
        rcases List.mem_cons.mp hc with rfl | hc
        · exact isHexChar_of_isVariantChar hwcv
        · exact hall6 c hc
    · exact ⟨vc, a4, rfl, (isVersionChar_iff.mp hvcv).1,
        (isVersionChar_iff.mp hvcv).2⟩
    · exact ⟨wc, a6, rfl, isVariantChar_iff.mp hwcv⟩
  · rintro ⟨hlen36, g1, g2, g3, g4, g5, hcat, hg1, hg2, hg3, hg4, hg5,
      ⟨vc, vrest, hv, hv1, hv5⟩, ⟨wc, wrest, hw, hwcase⟩⟩
    have hdata : s.data =
        g1.data ++ '-' :: (g2.data ++ '-' :: (g3.data ++ '-' ::
          (g4.data ++ '-' :: g5.data))) := by
      rw [hcat]
      simp [string_data_append, List.append_assoc]
    have hvrest : vrest.length = 3 := by
      have := hg3.1
      rw [show g3.length = g3.data.length from rfl, hv] at this
      simpa using this
    have hwrest : wrest.length = 3 := by
      have := hg4.1
      rw [show g4.length = g4.data.length from rfl, hw] at this
      simpa using this
    have hvcv : isVersionChar vc = true := isVersionChar_iff.mpr ⟨hv1, hv5⟩
    have hwcv : isVariantChar wc = true := isVariantChar_iff.mpr hwcase
    have s1 : runOf isHexChar 8 s.data =
        some ('-' :: (g2.data ++ '-' :: (g3.data ++ '-' ::
          (g4.data ++ '-' :: g5.data)))) :=
      runOf_eq_some.mpr ⟨g1.data, hdata, hg1.1, hg1.2⟩
    have s3 : runOf isHexChar 4
        (g2.data ++ '-' :: (g3.data ++ '-' :: (g4.data ++ '-' :: g5.data))) =
        some ('-' :: (g3.data ++ '-' :: (g4.data ++ '-' :: g5.data))) :=
      runOf_eq_some.mpr ⟨g2.data, rfl, hg2.1, hg2.2⟩
    have s5 : runOf isVersionChar 1
        (g3.data ++ '-' :: (g4.data ++ '-' :: g5.data)) =
        some (vrest ++ '-' :: (g4.data ++ '-' :: g5.data)) := by
      apply runOf_eq_some.mpr
      exact ⟨[vc], by simp [hv], rfl, by
        intro c hc
        rcases List.mem_cons.mp hc with rfl | hc
        · exact hvcv
        · simp at hc⟩
    have s6 : runOf isHexChar 3
        (vrest ++ '-' :: (g4.data ++ '-' :: g5.data)) =
        some ('-' :: (g4.data ++ '-' :: g5.data)) :=
      runOf_eq_some.mpr ⟨vrest, rfl, hvrest,
        fun c hc => hg3.2 c (by simp [hv, hc])⟩
    have s8 : runOf isVariantChar 1 (g4.data ++ '-' :: g5.data) =
        some (wrest ++ '-' :: g5.data) := by
      apply runOf_eq_some.mpr
      exact ⟨[wc], by simp [hw], rfl, by
        intro c hc
        rcases List.mem_cons.mp hc with rfl | hc
        · exact hwcv
        · simp at hc⟩
    have s9 : runOf isHexChar 3 (wrest ++ '-' :: g5.data) =
        some ('-' :: g5.data) :=
      runOf_eq_some.mpr ⟨wrest, rfl, hwrest,
        fun c hc => hg4.2 c (by simp [hw, hc])⟩
    have s11 : runOf isHexChar 12 g5.data = some [] :=
      runOf_eq_some.mpr ⟨g5.data, by simp, hg5.1, hg5.2⟩
    have d1 : expectDash ('-' :: (g2.data ++ '-' :: (g3.data ++ '-' ::
        (g4.data ++ '-' :: g5.data)))) =
        some (g2.data ++ '-' :: (g3.data ++ '-' ::
          (g4.data ++ '-' :: g5.data))) := expectDash_eq_some.mpr rfl
    have d2 : expectDash ('-' :: (g3.data ++ '-' ::
        (g4.data ++ '-' :: g5.data))) =
        some (g3.data ++ '-' :: (g4.data ++ '-' :: g5.data)) :=
      expectDash_eq_some.mpr rfl
    have d3 : expectDash ('-' :: (g4.data ++ '-' :: g5.data)) =
        some (g4.data ++ '-' :: g5.data) := expectDash_eq_some.mpr rfl
    have d4 : expectDash ('-' :: g5.data) = some g5.data :=
      expectDash_eq_some.mpr rfl
    rw [uuidMatcher, s1, Option.some_bind, d1, Option.some_bind, s3,
      Option.some_bind, d2, Option.some_bind, s5, Option.some_bind, s6,
      Option.some_bind, d3, Option.some_bind, s8, Option.some_bind, s9,
      Option.some_bind, d4, Option.some_bind, s11]

theorem splitSlash_ne_nil (cs : List Char) : splitSlash cs ≠ [] := by
  induction cs with
  | nil => simp [splitSlash]
  | cons c cs ih =>
    rw [splitSlash]
    cases h : splitSlash cs with
    | nil => exact absurd h ih
    | cons g gs =>
      by_cases hc : (c == '/') = true
      · simp [hc]
      · simp [hc]

theorem splitSlash_append_slash (cs : List Char) :
    splitSlash (cs ++ ['/']) = splitSlash cs ++ [[]] := by
  induction cs with
  | nil => rfl
  | cons c cs ih =>
    rw [List.cons_append, splitSlash, ih, splitSlash]
    cases h : splitSlash cs with
    | nil => exact absurd h (splitSlash_ne_nil cs)
    | cons g gs =>
      by_cases hc : (c == '/') = true
      · simp [hc]
      · simp [hc]

theorem pathSegments_append_slash (p : String) :
    pathSegments (p ++ "/") = pathSegments p := by
  rw [pathSegments, pathSegments, string_data_append,
    show ("/" : String).data = ['/'] from rfl, splitSlash_append_slash,
    List.map_append, List.filter_append]
  simp

theorem defaultLabelResolver_ignores_url (h : Option String) (q : String)
    (segs : List String) (a b u v : String) :
    defaultLabelResolver ⟨h, a, q, segs, u⟩ =
      defaultLabelResolver ⟨h, b, q, segs, v⟩ := rfl

/-- C10: for every pathname not ending in a slash (no base path, empty
query), the canonical keys of the pathname and of the pathname with a
trailing slash differ only by that slash, both produce the same segment
list and hence the same default label, and visiting one then the other
creates two distinct history entries. -/
theorem trailing_slash_distinct_entries (p : String)
    (_hp : jsEndsWith p ("/") = false) (heading : Option String)
    (query : String) (t1 t2 : Nat) :
    currentUrl p none ("") ≠ currentUrl (p ++ "/") none ("") ∧
    currentUrl (p ++ "/") none ("") = currentUrl p none ("") ++ "/" ∧
    pathSegments (normalizePath (p ++ "/") none) =
      pathSegments (normalizePath p none) ∧
    defaultLabelResolver ⟨heading, normalizePath (p ++ "/") none, query,
      pathSegments (normalizePath (p ++ "/") none),
      currentUrl (p ++ "/") none ("")⟩ =
      defaultLabelResolver ⟨heading, normalizePath p none, query,
        pathSegments (normalizePath p none), currentUrl p none ("")⟩ ∧
    (∀ l1 l2 : String,
      runOps DEFAULT_MAX_HISTORY [.visit ⟨p, p, l1, t1⟩,
        .visit ⟨p ++ "/", p ++ "/", l2, t2⟩] =
        [⟨p ++ "/", p ++ "/", l2, t2⟩, ⟨p, p, l1, t1⟩]) := by
  have hne : p ≠ p ++ "/" := by
    intro hcontra
    have hl : p.data.length = (p ++ "/").data.length :=
      congrArg (fun t => t.data.length) hcontra
    rw [string_data_append] at hl
    simp at hl
  have hcu : currentUrl p none ("") = p := rfl
  have hcu2 : currentUrl (p ++ "/") none ("") = p ++ "/" := rfl
  have hseg : pathSegments (normalizePath (p ++ "/") none) =
      pathSegments (normalizePath p none) := by
    show pathSegments (p ++ "/") = pathSegments p
    exact pathSegments_append_slash p
  refine ⟨?_, rfl, hseg, ?_, ?_⟩
  · rw [hcu, hcu2]
    exact hne
  · rw [hseg]
    exact defaultLabelResolver_ignores_url heading query _ _ _ _ _
  · intro l1 l2
    have hkey : (p == p ++ "/") = false := by
      simp only [beq_eq_false_iff_ne, ne_eq]
      exact hne
    show applyOp DEFAULT_MAX_HISTORY
      (applyOp DEFAULT_MAX_HISTORY [] (.visit ⟨p, p, l1, t1⟩))
      (.visit ⟨p ++ "/", p ++ "/", l2, t2⟩) = _
    have h1 : applyOp DEFAULT_MAX_HISTORY [] (.visit ⟨p, p, l1, t1⟩) =
        [⟨p, p, l1, t1⟩] := rfl
    rw [h1]
    show ((⟨p ++ "/", p ++ "/", l2, t2⟩ : SidebarHistoryEntry) ::
      [(⟨p, p, l1, t1⟩ : SidebarHistoryEntry)].filter
        (fun x => !(x.key == p ++ "/"))).take DEFAULT_MAX_HISTORY = _
    rw [List.filter_cons_of_pos (by simp [hkey]), List.filter_nil]
    rfl

/-- C9 (amended): before a cached backend payload is trusted, its shape is
validated as a sequence only: every non-sequence parse is treated as an
empty history, while the elements of a sequence are not individually
validated and are returned as stored, truncated to the cap. -/
theorem readHistory_sequence_check_only :
    (∀ cap, readHistory (.content (.ok .null)) cap = []) ∧
    (∀ cap b, readHistory (.content (.ok (.bool b))) cap = []) ∧
    (∀ cap n, readHistory (.content (.ok (.num n))) cap = []) ∧
    (∀ cap s, readHistory (.content (.ok (.str s))) cap = []) ∧
    (∀ cap fs, readHistory (.content (.ok (.obj fs))) cap = []) ∧
    (∀ cap elems, readHistory (.content (.ok (.arr elems))) cap =
      elems.take cap) :=
  ⟨fun _ => rfl, fun _ _ => rfl, fun _ _ => rfl, fun _ _ => rfl,
    fun _ _ => rfl, fun _ _ => rfl⟩

/-- Witness for C1 at a concrete operation sequence. -/
theorem history_store_invariants_witness :
    (runOps 2 [.visit ⟨"/a", "/a", "A", 1⟩, .visit ⟨"/b", "/b", "B", 2⟩,
      .visit ⟨"/c", "/c", "C", 3⟩]).length ≤ 2 ∧
    ((runOps 2 [.visit ⟨"/a", "/a", "A", 1⟩, .visit ⟨"/b", "/b", "B", 2⟩,
      .visit ⟨"/c", "/c", "C", 3⟩]).map (fun e => e.key)).Nodup ∧
    (applyOp 2 (runOps 2 [.visit ⟨"/a", "/a", "A", 1⟩,
      .visit ⟨"/b", "/b", "B", 2⟩, .visit ⟨"/c", "/c", "C", 3⟩])
      (.visit ⟨"/c", "/c", "C2", 4⟩)).head? = some ⟨"/c", "/c", "C2", 4⟩ := by
  have h := history_store_invariants 2 [.visit ⟨"/a", "/a", "A", 1⟩,
    .visit ⟨"/b", "/b", "B", 2⟩, .visit ⟨"/c", "/c", "C", 3⟩] (by decide)
  exact ⟨h.1, h.2.1, (h.2.2.2 ⟨"/c", "/c", "C2", 4⟩ (by decide)).1⟩

/-- Witness for C4 at scenario A. -/
theorem defaultLabelResolver_fallback_witness :
    defaultLabelResolver ⟨none, "/docs/intro", "", ["docs", "intro"],
      "/docs/intro"⟩ =
      String.intercalate labelJoin
        (((["docs", "intro"] : List String).drop
          ((["docs", "intro"] : List String).length - 2)).map
          (fun seg => toTitleCase seg)) :=
  (defaultLabelResolver_fallback ⟨none, "/docs/intro", "",
    ["docs", "intro"], "/docs/intro"⟩ (by decide) (Or.inl rfl)).1

/-- Witness for C5 at a concrete base path. -/
theorem normalizePath_currentUrl_spec_witness :
    normalizePath ("/dashboard/docs") (some ("/dashboard")) =
      jsSliceFrom ("/dashboard/docs") ("/dashboard" : String).length ∧
    normalizePath ("/dashboard") (some ("/dashboard")) = "/" ∧
    currentUrl ("/dashboard/docs") (some ("/dashboard")) ("x=1") =
      normalizePath ("/dashboard/docs") (some ("/dashboard")) ++ "?" ++ "x=1" := by
  refine ⟨(normalizePath_currentUrl_spec ("/dashboard/docs") ("/dashboard")
      ("x=1") (by decide)).1 (by decide), ?_, ?_⟩
  · exact (normalizePath_currentUrl_spec ("/dashboard") ("/dashboard")
      ("x=1") (by decide)).2.1 rfl
  · exact (normalizePath_currentUrl_spec ("/dashboard/docs") ("/dashboard")
      ("x=1") (by decide)).2.2.1 (some ("/dashboard")) (by decide)

/-- Witness for C6 at a concrete state and navigation. -/
theorem deferred_refinement_protocol_witness :
    (stepController ⟨none, none, 50⟩
      ⟨[⟨"/a", "/a", "A", 1⟩], some ⟨"/old", "/old", ""⟩⟩
      (.navigate ("/b") ("") none 2)).pending = some ⟨"/b", "/b", ""⟩ ∧
    (stepController ⟨none, none, 50⟩
      ⟨[⟨"/a", "/a", "A", 1⟩], some ⟨"/old", "/old", ""⟩⟩
      (.fire (some ("H")))).entries.get? 0 = some ⟨"/a", "/a", "A", 1⟩ := by
  have h := deferred_refinement_protocol ⟨none, none, 50⟩
    ⟨[⟨"/a", "/a", "A", 1⟩], some ⟨"/old", "/old", ""⟩⟩ ("/b") ("") none 2
  refine ⟨?_, ?_⟩
  · rw [h.1]
    decide
  · exact h.2.1 ⟨"/old", "/old", ""⟩ (some ("H")) 0 ⟨"/a", "/a", "A", 1⟩
      rfl rfl (by decide)

/-- Witness for C7 at a concrete store. -/
theorem phase2_frame_witness :
    phase2 [⟨"/a", "/a", "A", 1⟩, ⟨"/b", "/b", "B", 2⟩] ("/b") (some ("H"))
      ("B2") = [⟨"/a", "/a", "A", 1⟩, ⟨"/b", "/b", "B2", 2⟩] := by
  have h := ((phase2_frame [⟨"/a", "/a", "A", 1⟩, ⟨"/b", "/b", "B", 2⟩]
    ("/b") (some ("H")) ("B2")).2.2 1 ⟨"/b", "/b", "B", 2⟩ (by decide)
    (by decide)).2 (by decide) (by decide)
  exact h.1.trans (by decide)

/-- Witness for C3 at a concrete identifier. -/
theorem UUID_PATTERN_test_iff_UuidShape_witness :
    UuidShape "123e4567-e89b-12d3-a456-426614174000" :=
  (UUID_PATTERN_test_iff_UuidShape
    ("123e4567-e89b-12d3-a456-426614174000")).mp (by decide)

/-- Witness for C10 at a concrete pathname. -/
theorem trailing_slash_distinct_entries_witness :
    currentUrl ("/docs") none ("") ≠ currentUrl ("/docs" ++ "/") none ("") ∧
    runOps DEFAULT_MAX_HISTORY [.visit ⟨"/docs", "/docs", "Docs", 1⟩,
      .visit ⟨"/docs" ++ "/", "/docs" ++ "/", "Intro", 2⟩] =
      [⟨"/docs" ++ "/", "/docs" ++ "/", "Intro", 2⟩,
        ⟨"/docs", "/docs", "Docs", 1⟩] := by
  have h := trailing_slash_distinct_entries ("/docs") (by decide) none ("") 1 2
  exact ⟨h.1, h.2.2.2.2 ("Docs") ("Intro")⟩
